import Mathlib

/-!
# schedulerPayment: the pending-meeting store of `core/core.go`

The development embeds `core/core.go` together with the part of the two libraries it
drives, as far as the behaviour of the functions of `core.go` depends on them.

* `github.com/hashicorp/go-memdb`, for the table `pendingMeetings` with the two indexes
  declared in `InitIMDB`.  What is used of the library:
  - `StringFieldIndex.FromObject` reads the field by reflection, reports `ok = false` for the
    empty string and otherwise returns the value with a NUL byte appended;
    `StringFieldIndex.FromArgs` appends a NUL byte to the argument;
  - `Txn.Insert` adds or updates: the object stored under the same primary key is replaced;
    an index without a value for the object is an error unless it has `AllowMissing`; the
    flag `Unique` only decides whether the primary key is appended to the key of the index,
    and no index is checked for an entry that is there already;
  - `Txn.Delete` removes the object stored under the primary key of its argument from every
    index and returns `ErrNotFound` when there is none;
  - `Txn.Get` builds the key with `FromArgs`, positions an iterator of the radix tree of the
    index with `SeekPrefixWatch` on it and yields every entry at or below that position;
  - `Txn.Commit` publishes the working copy of a write transaction, `Txn.Abort` drops it.
* `net/http`: the requests handed to `http.DefaultClient.Do` are recorded and what `Do`
  returns is supplied from outside (`Env`), as is whether `http.NewRequestWithContext` could
  build the request to the Nylas API.

Go strings are sequences of bytes; they are modelled by `String`, of which only
concatenation, equality, the order by initial segments and the NUL character are used.  A
panic is modelled by a fault value that is returned together with the store as it is once
the deferred `txn.Abort()` has run.  Calls of `log.Println` are not modelled.
-/

namespace core

/-! ## Types of `core.go` -/

/-- The Go struct of the same name: the error value built from a failed outbound call. -/
structure RequestError where
  StatusCode : Int
  Err : String
deriving DecidableEq, Repr

/-- The Go struct of the same name: the only entity kept in the store. -/
structure pendingMeeting where
  eventId : String
  pageSlug : String
  editHash : String
deriving DecidableEq, Repr

/-- The Go zero value written as a composite literal without fields in `getPendingMeeting`. -/
def pendingMeeting.zero : pendingMeeting := ⟨"", "", ""⟩

/-- The Go struct of the same name: the JSON payload of the accept call. -/
structure acceptMeetingRequest where
  Url : String
deriving DecidableEq, Repr

/-! ## go-memdb: indexes, schema, transactions -/

/-- One index of a table: go-memdb keeps it as an immutable radix tree from key bytes to the
stored object.  It is represented by an association list; the order of iteration of the tree
is not modelled (`getPendingMeeting` uses the number of results and the only result). -/
abbrev Index := List (String × pendingMeeting)

/-- Exact lookup of a key in the radix tree (`iradix.Txn.Get`). -/
def Index.Get (t : Index) (k : String) : Option pendingMeeting :=
  ((t.filter (fun e => decide (e.1 = k))).head?).map Prod.snd

/-- Removal of a key from the radix tree (`iradix.Txn.Delete`); absent keys are ignored. -/
def Index.Delete (t : Index) (k : String) : Index :=
  t.filter (fun e => decide (e.1 ≠ k))

/-- Insertion into the radix tree (`iradix.Txn.Insert`): an entry under the same key is
replaced. -/
def Index.Insert (t : Index) (k : String) (v : pendingMeeting) : Index :=
  (k, v) :: t.filter (fun e => decide (e.1 ≠ k))

/-- The objects an iterator yields after `SeekPrefixWatch`: every entry whose key starts with
the given bytes. -/
def Index.SeekPrefixWatch (t : Index) (p : String) : List pendingMeeting :=
  (t.filter (fun e => List.isPrefixOf p.data e.1.data)).map Prod.snd

/-- The two indexes the schema of `InitIMDB` declares for the table `pendingMeetings`. -/
inductive IndexName where
  | id
  | editHash
deriving DecidableEq, Repr

/-- The struct field read by the `StringFieldIndex` of each index (`Field: "eventId"` resp.
`Field: "editHash"`). -/
def IndexName.field : IndexName → pendingMeeting → String
  | .id, p => p.eventId
  | .editHash, p => p.editHash

/-- The name of the index as written in the schema. -/
def IndexName.label : IndexName → String
  | .id => "id"
  | .editHash => "editHash"

/-- The database `DB`: the radix trees of the two indexes of the only table. -/
structure MemDB where
  id : Index
  editHash : Index
deriving DecidableEq, Repr

/-- The radix tree of the named index. -/
def MemDB.index (db : MemDB) : IndexName → Index
  | .id => db.id
  | .editHash => db.editHash

/-- The database with the radix tree of the named index replaced. -/
def MemDB.setIndex (db : MemDB) (n : IndexName) (t : Index) : MemDB :=
  match n with
  | .id => { db with id := t }
  | .editHash => { db with editHash := t }

/-- Models `InitIMDB`: the schema is valid (the table has a unique single-field index called `id`),
so `memdb.NewMemDB` returns a database whose indexes are empty and nothing panics. -/
def InitIMDB : MemDB := ⟨[], []⟩

/-- Models `StringFieldIndex.FromObject`: reads the field; the empty string yields `ok = false`,
any other value is terminated by a NUL byte (`val += "\x00"`). -/
def StringFieldIndex.FromObject (n : IndexName) (obj : pendingMeeting) : Bool × String :=
  let val := n.field obj
  if val = "" then (false, "") else (true, val ++ "\x00")

/-- Models `StringFieldIndex.FromArgs`: the argument terminated by a NUL byte. -/
def StringFieldIndex.FromArgs (arg : String) : String := arg ++ "\x00"

/-- A write transaction: the committed database it was started on and its private working
copy. -/
structure Txn where
  db : MemDB
  work : MemDB
deriving DecidableEq, Repr

/-- Models `DB.Txn(true)`. -/
def MemDB.Txn (db : MemDB) : Txn := ⟨db, db⟩

/-- Models `txn.Abort()`: the working copy is dropped; the result is the database afterwards. -/
def Txn.Abort (txn : Txn) : MemDB := txn.db

/-- Models `txn.Commit()`: the working copy becomes the database. -/
def Txn.Commit (txn : Txn) : MemDB := txn.work

/-- The body of the loop `for name, indexSchema := range tableSchema.Indexes` of `Txn.Insert`
for one index: on an update the old key is deleted when it differs from the new one; a
missing value is an error (no index has `AllowMissing`); otherwise the object is written
under its key, replacing what was there. -/
def Txn.insertIndex (obj : pendingMeeting) (existing : Option pendingMeeting) (work : MemDB)
    (name : IndexName) : MemDB × Option String :=
  let fo := StringFieldIndex.FromObject name obj
  let work1 :=
    match existing with
    | some ex =>
      let fe := StringFieldIndex.FromObject name ex
      if fe.1 && decide (fe.2 ≠ fo.2) then
        work.setIndex name ((work.index name).Delete fe.2)
      else work
    | none => work
  if !fo.1 then (work1, some ("missing value for index \x27" ++ name.label ++ "\x27"))
  else (work1.setIndex name ((work1.index name).Insert fo.2 obj), none)

/-- The loop of `Txn.Insert` over the indexes in the order in which Go happens to range over
the map; it stops at the first error. -/
def Txn.insertLoop (obj : pendingMeeting) (existing : Option pendingMeeting) :
    List IndexName → MemDB → MemDB × Option String
  | [], work => (work, none)
  | name :: rest, work =>
    match Txn.insertIndex obj existing work name with
    | (work1, some err) => (work1, some err)
    | (work1, none) => Txn.insertLoop obj existing rest work1

/-- Models `Txn.Insert` ("Insert is used to add or update an object into the given table"): the
primary key must be present; an object stored under the same primary key makes the call an
update; the unique flag of an index only decides how its keys are built, no index is checked
for an entry that is already there. -/
def Txn.Insert (order : List IndexName) (txn : Txn) (obj : pendingMeeting) :
    Txn × Option String :=
  let fo := StringFieldIndex.FromObject .id obj
  if !fo.1 then (txn, some "object missing primary index")
  else
    let existing := txn.work.id.Get fo.2
    let r := Txn.insertLoop obj existing order txn.work
    ({ txn with work := r.1 }, r.2)

/-- Models `Txn.Delete`: the object stored under the primary key of the argument is removed
from every index; without such an object the result is `ErrNotFound`.  The loop over the
indexes has no exit and each pass writes another index, so its order is immaterial. -/
def Txn.Delete (txn : Txn) (obj : pendingMeeting) : Txn × Option String :=
  let fo := StringFieldIndex.FromObject .id obj
  if !fo.1 then (txn, some "object missing primary index")
  else
    match txn.work.id.Get fo.2 with
    | none => (txn, some "not found")
    | some existing =>
      let work := [IndexName.id, IndexName.editHash].foldl
        (fun w name =>
          let fe := StringFieldIndex.FromObject name existing
          if fe.1 then w.setIndex name ((w.index name).Delete fe.2) else w)
        txn.work
      ({ txn with work := work }, none)

/-- Models `Txn.Get` on a named index: the key is built by `FromArgs`, the iterator is
positioned with `indexIter.SeekPrefixWatch(val)`, and it yields every entry whose key starts
with that key.  The NUL byte that ends every key makes this an exact match as long as the
stored values hold no NUL byte themselves. -/
def Txn.Get (txn : Txn) (name : IndexName) (arg : String) : List pendingMeeting :=
  (txn.work.index name).SeekPrefixWatch (StringFieldIndex.FromArgs arg)

/-! ## The outside world -/

/-- A request handed to `http.DefaultClient.Do`: method, URL and, for the accept call, the
value marshalled into the body.  Headers are not modelled. -/
structure Request where
  method : String
  url : String
  body : Option acceptMeetingRequest
deriving DecidableEq, Repr

/-- What `http.DefaultClient.Do` returns: an error, or a response with its status. -/
inductive HttpResult where
  | httpErr (msg : String)
  | response (StatusCode : Int) (Status : String)
deriving DecidableEq, Repr

/-- What one call of an entry point takes from outside: the order in which Go ranges over
the map of indexes, whether `http.NewRequestWithContext` built the request to the Nylas API
(it returns nil when the URL does not parse), and the result of `http.DefaultClient.Do`. -/
structure Env where
  idFirst : Bool
  nylasRequestBuilt : Bool
  http : HttpResult
deriving DecidableEq, Repr

/-- The order of the indexes in the loop of `Txn.Insert`. -/
def Env.order (env : Env) : List IndexName :=
  if env.idFirst then [.id, .editHash] else [.editHash, .id]

/-- The result of an entry point: the store afterwards, the requests handed to
`http.DefaultClient.Do`, and the panic value if the call panicked. -/
structure Outcome where
  db : MemDB
  calls : List Request
  fault : Option String
deriving DecidableEq, Repr

deriving instance DecidableEq for Except

/-! ## Private functions of `core.go` -/

/-- Models `buildAcceptUrl`. -/
def buildAcceptUrl (p : pendingMeeting) : String :=
  "https://schedule.nylas.com/" ++ p.pageSlug ++ "/confirm/" ++ p.editHash

/-- Models `deleteFromNylas`: the request is built, its header is set (a nil request makes this a
nil dereference) and it is sent; an error of `Do` and a status other than 200 are returned as
a `RequestError`. -/
def deleteFromNylas (env : Env) (p : pendingMeeting) :
    List Request × Except String (Option RequestError) :=
  if !env.nylasRequestBuilt then
    ([], .error "invalid memory address or nil pointer dereference")
  else
    let req : Request := ⟨"GET", "api.nylas.com/" ++ p.eventId, none⟩
    match env.http with
    | .httpErr msg => ([req], .ok (some ⟨500, msg⟩))
    | .response code status =>
      if code ≠ 200 then ([req], .ok (some ⟨code, status⟩)) else ([req], .ok none)

/-- Models `getPendingMeeting`: the lookup runs in a transaction that is always aborted; more than
one result is a panic, one result is returned with `true`, none gives the zero value with
`false`.  The first component is the store after the call. -/
def getPendingMeeting (db : MemDB) (eventId : String) :
    MemDB × Except String (pendingMeeting × Bool) :=
  let txn := db.Txn
  let results := txn.Get .id eventId
  if results.length > 1 then
    (txn.Abort, .error "getPendingMeeting: found more than one matching event")
  else if h : results.length = 1 then
    (txn.Abort, .ok (results.get ⟨0, by omega⟩, true))
  else
    (txn.Abort, .ok (pendingMeeting.zero, false))

/-- Models `insert`: an error of `txn.Insert` is a panic and the deferred `txn.Abort()` drops the
working copy; otherwise the transaction is committed. -/
def insert (env : Env) (db : MemDB) (p : pendingMeeting) : MemDB × Option String :=
  let txn := db.Txn
  match txn.Insert env.order p with
  | (txn1, some err) => (txn1.Abort, some err)
  | (txn1, none) => (txn1.Commit, none)

/-- Models `remove`: an error of `txn.Delete` is a panic and the deferred `txn.Abort()` drops the
working copy; otherwise the transaction is committed. -/
def remove (db : MemDB) (p : pendingMeeting) : MemDB × Option String :=
  let txn := db.Txn
  match txn.Delete p with
  | (txn1, some err) => (txn1.Abort, some err)
  | (txn1, none) => (txn1.Commit, none)

/-- Models `acceptMeeting`: `json.Marshal` of a struct with one string field cannot fail and the
literal URL of the request parses, so the request is always sent; an error of `Do` and a
status other than 200 are returned as a `RequestError`. -/
def acceptMeeting (env : Env) (p : pendingMeeting) : List Request × Option RequestError :=
  let payload : acceptMeetingRequest := ⟨buildAcceptUrl p⟩
  let req : Request := ⟨"POST", "http://localhost:3000/accept", some payload⟩
  match env.http with
  | .httpErr msg => ([req], some ⟨500, msg⟩)
  | .response code status =>
    if code ≠ 200 then ([req], some ⟨code, status⟩) else ([req], none)

/-! ## Public functions of `core.go` -/

/-- Models `SavePendingMeeting`. -/
def SavePendingMeeting (env : Env) (db : MemDB) (eventId pageSlug editHash : String) :
    Outcome :=
  let p : pendingMeeting := ⟨eventId, pageSlug, editHash⟩
  let r := insert env db p
  ⟨r.1, [], r.2⟩

/-- Models `GetAndAcceptPendingMeeting`. -/
def GetAndAcceptPendingMeeting (env : Env) (db : MemDB) (eventId : String) : Outcome :=
  match getPendingMeeting db eventId with
  | (db1, .error v) => ⟨db1, [], some v⟩
  | (db1, .ok (meeting, found)) =>
    if found then
      match acceptMeeting env meeting with
      | (calls, some err) => ⟨db1, calls, some err.Err⟩
      | (calls, none) =>
        let r := remove db1 meeting
        ⟨r.1, calls, r.2⟩
    else ⟨db1, [], none⟩

/-- Models `GetAndDeletePendingMeeting`. -/
def GetAndDeletePendingMeeting (env : Env) (db : MemDB) (eventId : String) : Outcome :=
  match getPendingMeeting db eventId with
  | (db1, .error v) => ⟨db1, [], some v⟩
  | (db1, .ok (meeting, found)) =>
    if found then
      match remove db1 meeting with
      | (db2, some v) => ⟨db2, [], some v⟩
      | (db2, none) =>
        match deleteFromNylas env meeting with
        | (calls, .error v) => ⟨db2, calls, some v⟩
        | (calls, .ok _) => ⟨db2, calls, none⟩
    else ⟨db1, [], none⟩

/-! ## Vocabulary of the statements -/

/-- The records the store holds: the objects of the primary index. -/
def MemDB.records (db : MemDB) : List pendingMeeting := db.id.map Prod.snd

/-- Well-formed stores, the representation invariant of the primary index: every entry is
filed under the NUL-terminated eventId of its record, stored records have a non-empty eventId
and editHash, and no key occurs twice.  Every reachable store is well-formed
(`WF_of_Reachable`). -/
def WF (db : MemDB) : Prop :=
  (∀ e ∈ db.id, e.1 = e.2.eventId ++ "\x00" ∧ e.2.eventId ≠ "" ∧ e.2.editHash ≠ "") ∧
    (db.id.map Prod.fst).Nodup

instance (db : MemDB) : Decidable (WF db) := by
  unfold WF; infer_instance

/-- The string `s` starts with `arg` followed by a NUL byte; the key of `s` then lies below
the key of `arg` in the radix tree although `s` is another string. -/
def Shadows (s arg : String) : Prop :=
  (arg ++ "\x00").data <+: s.data

instance (s arg : String) : Decidable (Shadows s arg) := by
  unfold Shadows; infer_instance

/-- Some stored eventId starts with `arg` followed by a NUL byte. -/
def Shadowed (db : MemDB) (arg : String) : Prop :=
  ∃ r ∈ db.records, Shadows r.eventId arg

instance (db : MemDB) (arg : String) : Decidable (Shadowed db arg) := by
  unfold Shadowed; infer_instance

/-- The request `acceptMeeting` sends for a record. -/
def acceptRequest (p : pendingMeeting) : Request :=
  ⟨"POST", "http://localhost:3000/accept", some ⟨buildAcceptUrl p⟩⟩

/-- The request `deleteFromNylas` sends for a record. -/
def cancelRequest (p : pendingMeeting) : Request :=
  ⟨"GET", "api.nylas.com/" ++ p.eventId, none⟩

/-- The calls of the three entry points. -/
inductive Call where
  | save (eventId pageSlug editHash : String)
  | accept (eventId : String)
  | delete (eventId : String)
deriving DecidableEq, Repr

/-- One call of an entry point on a store. -/
def step (env : Env) (db : MemDB) : Call → Outcome
  | .save e p h => SavePendingMeeting env db e p h
  | .accept e => GetAndAcceptPendingMeeting env db e
  | .delete e => GetAndDeletePendingMeeting env db e

/-- The stores reachable from the empty store by calls of the entry points, whatever their
arguments and whatever the outside world answers; a call that panicked may be followed by
further calls on the store it left. -/
inductive Reachable : MemDB → Prop where
  | init : Reachable InitIMDB
  | step (env : Env) (c : Call) {db : MemDB} : Reachable db → Reachable (step env db c).db

/-- The outcomes of a sequence of accept (`true`) and delete (`false`) calls for one eventId,
each on the store the previous call left. -/
def settle (eventId : String) : MemDB → List (Bool × Env) → List Outcome
  | _, [] => []
  | db, (isAccept, env) :: rest =>
    let o := if isAccept then GetAndAcceptPendingMeeting env db eventId
      else GetAndDeletePendingMeeting env db eventId
    o :: settle eventId o.db rest

/-! ## Sample worlds and stores -/

/-- A world in which the remote service answers 200. -/
def envOK : Env := ⟨true, true, .response 200 "200 OK"⟩

/-- A world in which the remote service answers 500. -/
def env500 : Env := ⟨false, true, .response 500 "500 Internal Server Error"⟩

/-- The store after the redirect `event_id=a%00b&page_slug=p0&edit_hash=h0` on the empty
store: one record, whose eventId is `a`, a NUL byte, `b`. -/
def dbLong : MemDB := (SavePendingMeeting envOK InitIMDB "a\x00b" "p0" "h0").db

/-- The store `dbLong` after a second redirect, for the eventId `a`. -/
def dbBoth : MemDB := (SavePendingMeeting envOK dbLong "a" "p" "h").db

/-- The store after the redirect for `evt1`, `slugA`, `hashA` on the empty store. -/
def dbOne : MemDB := (SavePendingMeeting envOK InitIMDB "evt1" "slugA" "hashA").db

/-- A world in which `http.NewRequestWithContext` returns nil for the request to the Nylas
API, as it does when the URL does not parse. -/
def envNoRequest : Env := ⟨true, false, .httpErr ""⟩

/-- The store after the redirect `event_id=%25zz&page_slug=p&edit_hash=h` on the empty store:
one record, whose eventId is a percent sign followed by `zz`. -/
def dbEscape : MemDB := (SavePendingMeeting envOK InitIMDB "%zz" "p" "h").db

/-! ## The radix tree -/

theorem Index.filter_key_eq_of_mem (t : Index) (hn : (t.map Prod.fst).Nodup) (k : String)
    (v : pendingMeeting) (h : (k, v) ∈ t) :
    t.filter (fun e => decide (e.1 = k)) = [(k, v)] := by
  induction t with
  | nil => simp at h
  | cons a t ih =>
    simp only [List.map_cons, List.nodup_cons] at hn
    rcases List.mem_cons.1 h with h1 | h1
    · subst h1
      have : t.filter (fun e => decide (e.1 = k)) = [] := by
        rw [List.filter_eq_nil_iff]
        intro e he
        have : e.1 ∈ t.map Prod.fst := List.mem_map_of_mem _ he
        simp only [decide_eq_true_eq]
        intro hk
        exact hn.1 (hk ▸ this)
      simp [List.filter_cons, this]
    · have hne : a.1 ≠ k := by
        intro hk
        have : k ∈ t.map Prod.fst := List.mem_map_of_mem Prod.fst h1
        exact hn.1 (hk ▸ this)
      simp [List.filter_cons, hne, ih hn.2 h1]

theorem Index.Get_eq_some_of_mem (t : Index) (hn : (t.map Prod.fst).Nodup) (k : String)
    (v : pendingMeeting) (h : (k, v) ∈ t) : t.Get k = some v := by
  have := Index.filter_key_eq_of_mem t hn k v h
  unfold Index.Get
  rw [this]
  rfl

theorem Index.nodup_Delete (t : Index) (k : String) (hn : (t.map Prod.fst).Nodup) :
    ((t.Delete k).map Prod.fst).Nodup := by
  unfold Index.Delete
  exact (List.Nodup.sublist ((List.filter_sublist t).map Prod.fst) hn)

theorem Index.key_not_mem_Delete (t : Index) (k : String) :
    k ∉ (t.Delete k).map Prod.fst := by
  unfold Index.Delete
  intro h
  obtain ⟨e, he, hk⟩ := List.mem_map.1 h
  have := (List.mem_filter.1 he).2
  simp at this
  exact this hk

theorem Index.nodup_Insert (t : Index) (k : String) (v : pendingMeeting)
    (hn : (t.map Prod.fst).Nodup) : ((t.Insert k v).map Prod.fst).Nodup := by
  unfold Index.Insert
  simp only [List.map_cons, List.nodup_cons]
  exact ⟨Index.key_not_mem_Delete t k, Index.nodup_Delete t k hn⟩


/-! ## Keys -/

theorem key_inj (a b : String) (h : a ++ "\x00" = b ++ "\x00") : a = b := by
  have h1 := congrArg String.data h
  simp only [String.data_append] at h1
  exact String.ext (List.append_cancel_right h1)

/-- A key that starts with the key of another string belongs to a string that starts with
that string followed by a NUL byte. -/
theorem Shadows_of_key (s arg : String) (hne : s ≠ arg)
    (h : (arg ++ "\x00").data <+: (s ++ "\x00").data) : Shadows s arg := by
  obtain ⟨t, ht⟩ := h
  simp only [String.data_append] at ht
  rcases List.eq_nil_or_concat t with h0 | ⟨t1, c, rfl⟩
  · subst h0
    rw [List.append_nil] at ht
    exact absurd (String.ext (List.append_cancel_right ht)).symm hne
  · rw [List.concat_eq_append, ← List.append_assoc] at ht
    have h1 := List.append_inj_left' ht rfl
    exact ⟨t1, by simpa only [String.data_append] using h1⟩

theorem not_Shadows_self (arg : String) : ¬ Shadows arg arg := by
  intro h
  have hl := List.IsPrefix.length_le h
  have h1 : ("\x00" : String).data.length = 1 := by decide
  rw [String.data_append, List.length_append, h1] at hl
  omega

/-! ## The lookup -/

theorem getPendingMeeting_of_seek_nil (db : MemDB) (eventId : String)
    (h : db.id.SeekPrefixWatch (eventId ++ "\x00") = []) :
    getPendingMeeting db eventId = (db, .ok (pendingMeeting.zero, false)) := by
  simp [getPendingMeeting, MemDB.Txn, Txn.Abort, Txn.Get, MemDB.index,
    StringFieldIndex.FromArgs, h]

theorem getPendingMeeting_of_seek_single (db : MemDB) (eventId : String) (m : pendingMeeting)
    (h : db.id.SeekPrefixWatch (eventId ++ "\x00") = [m]) :
    getPendingMeeting db eventId = (db, .ok (m, true)) := by
  simp [getPendingMeeting, MemDB.Txn, Txn.Abort, Txn.Get, MemDB.index,
    StringFieldIndex.FromArgs, h]

theorem getPendingMeeting_of_seek_many (db : MemDB) (eventId : String)
    (h : 1 < (db.id.SeekPrefixWatch (eventId ++ "\x00")).length) :
    getPendingMeeting db eventId =
      (db, .error "getPendingMeeting: found more than one matching event") := by
  simp [getPendingMeeting, MemDB.Txn, Txn.Abort, Txn.Get, MemDB.index,
    StringFieldIndex.FromArgs, h]

/-- In a well-formed store in which no stored eventId shadows the argument, the iterator of
the lookup yields what an exact match of the key yields. -/
theorem seek_eq_filter_key (db : MemDB) (arg : String) (hwf : WF db)
    (hs : ¬ Shadowed db arg) :
    db.id.SeekPrefixWatch (arg ++ "\x00") =
      (db.id.filter (fun e => decide (e.1 = arg ++ "\x00"))).map Prod.snd := by
  unfold Index.SeekPrefixWatch
  congr 1
  apply List.filter_congr
  intro e he
  obtain ⟨hk, -, -⟩ := hwf.1 e he
  by_cases hek : e.1 = arg ++ "\x00"
  · simp [hek]
  · have hne : e.2.eventId ≠ arg := by
      intro h
      exact hek (by rw [hk, h])
    have : ¬ ((arg ++ "\x00").data <+: e.1.data) := by
      intro hp
      apply hs
      refine ⟨e.2, List.mem_map_of_mem Prod.snd he, Shadows_of_key _ _ hne ?_⟩
      rw [← hk]
      exact hp
    have hb : List.isPrefixOf (arg ++ "\x00").data e.1.data = false := by
      rw [Bool.eq_false_iff]
      intro hp
      exact this ( List.isPrefixOf_iff_prefix.1 hp)
    rw [hb]
    simp [hek]

theorem mem_id_of_mem_records (db : MemDB) (hwf : WF db) (r : pendingMeeting)
    (h : r ∈ db.records) : (r.eventId ++ "\x00", r) ∈ db.id := by
  obtain ⟨e, he, rfl⟩ := List.mem_map.1 h
  obtain ⟨hk, -, -⟩ := hwf.1 e he
  rw [← hk]
  exact he

theorem getPendingMeeting_found (db : MemDB) (arg : String) (hwf : WF db)
    (hs : ¬ Shadowed db arg) (r : pendingMeeting) (hr : r ∈ db.records)
    (hid : r.eventId = arg) : getPendingMeeting db arg = (db, .ok (r, true)) := by
  apply getPendingMeeting_of_seek_single
  rw [seek_eq_filter_key db arg hwf hs]
  have hm := mem_id_of_mem_records db hwf r hr
  rw [hid] at hm
  rw [Index.filter_key_eq_of_mem db.id hwf.2 _ r hm]
  rfl


/-! ## Writes -/

theorem insert_of_missing_id (env : Env) (db : MemDB) (p : pendingMeeting)
    (h : p.eventId = "") : insert env db p = (db, some "object missing primary index") := by
  simp [insert, Txn.Insert, MemDB.Txn, Txn.Abort, StringFieldIndex.FromObject,
    IndexName.field, h]

theorem insert_of_missing_hash (env : Env) (db : MemDB) (p : pendingMeeting)
    (he : p.eventId ≠ "") (h : p.editHash = "") :
    insert env db p = (db, some "missing value for index \x27editHash\x27") := by
  cases hx : db.id.Get (p.eventId ++ "\x00") <;> cases ho : env.idFirst <;>
    simp [insert, Txn.Insert, MemDB.Txn, Txn.Abort, StringFieldIndex.FromObject,
      IndexName.field, h, he, hx, ho, Env.order, Txn.insertLoop, Txn.insertIndex,
      IndexName.label]

theorem Index.Get_eq_some (t : Index) (k : String) (v : pendingMeeting)
    (h : t.Get k = some v) : (k, v) ∈ t := by
  unfold Index.Get at h
  obtain ⟨e, he, hv⟩ := Option.map_eq_some'.1 h
  have hm := List.mem_of_mem_head? he
  have h2 := List.mem_filter.1 hm
  have hk : e.1 = k := by simpa using h2.2
  have : e = (k, v) := Prod.ext hk hv
  rw [← this]
  exact h2.1

theorem insert_ok (env : Env) (db : MemDB) (p : pendingMeeting) (hwf : WF db)
    (he : p.eventId ≠ "") (hh : p.editHash ≠ "") :
    (insert env db p).2 = none ∧
      (insert env db p).1.id = db.id.Insert (p.eventId ++ "\x00") p := by
  cases hx : db.id.Get (p.eventId ++ "\x00") with
  | none =>
    cases ho : env.idFirst <;>
      simp [insert, Txn.Insert, MemDB.Txn, Txn.Commit, StringFieldIndex.FromObject,
        IndexName.field, he, hh, hx, ho, Env.order, Txn.insertLoop, Txn.insertIndex,
        MemDB.setIndex, MemDB.index]
  | some v =>
    obtain ⟨hk, -, hvh⟩ := hwf.1 _ (Index.Get_eq_some _ _ _ hx)
    have hv : v.eventId = p.eventId := (key_inj _ _ hk).symm
    by_cases hc : v.editHash ++ "\x00" = p.editHash ++ "\x00" <;>
      cases ho : env.idFirst <;>
      simp [insert, Txn.Insert, MemDB.Txn, Txn.Commit, StringFieldIndex.FromObject,
        IndexName.field, he, hh, hx, ho, Env.order, Txn.insertLoop, Txn.insertIndex,
        MemDB.setIndex, MemDB.index, hv, hvh, hc]

/-- The store after a write of the primary index stays well-formed. -/
theorem WF_of_id_Insert (db db1 : MemDB) (p : pendingMeeting) (hwf : WF db)
    (he : p.eventId ≠ "") (hh : p.editHash ≠ "")
    (h : db1.id = db.id.Insert (p.eventId ++ "\x00") p) : WF db1 := by
  refine ⟨?_, ?_⟩
  · intro e hm
    rw [h] at hm
    rcases List.mem_cons.1 hm with h1 | h1
    · subst h1
      exact ⟨rfl, he, hh⟩
    · exact hwf.1 e (List.mem_filter.1 h1).1
  · rw [h]
    exact Index.nodup_Insert _ _ _ hwf.2

theorem WF_of_id_Delete (db db1 : MemDB) (k : String) (hwf : WF db)
    (h : db1.id = db.id.Delete k) : WF db1 := by
  refine ⟨?_, ?_⟩
  · intro e hm
    rw [h] at hm
    exact hwf.1 e (List.mem_filter.1 hm).1
  · rw [h]
    exact Index.nodup_Delete _ _ hwf.2

theorem WF_of_id_eq (db db1 : MemDB) (hwf : WF db) (h : db1.id = db.id) : WF db1 := by
  unfold WF at *
  rw [h]
  exact hwf

theorem WF_insert (env : Env) (db : MemDB) (p : pendingMeeting) (hwf : WF db) :
    WF (insert env db p).1 := by
  by_cases he : p.eventId = ""
  · rw [insert_of_missing_id env db p he]
    exact hwf
  · by_cases hh : p.editHash = ""
    · rw [insert_of_missing_hash env db p he hh]
      exact hwf
    · exact WF_of_id_Insert db _ p hwf he hh (insert_ok env db p hwf he hh).2

theorem remove_id (db : MemDB) (p : pendingMeeting) :
    (remove db p).1.id = db.id ∨ ∃ k, (remove db p).1.id = db.id.Delete k := by
  unfold remove Txn.Delete
  simp only [MemDB.Txn]
  split
  · rename_i txn1 err heq
    left
    revert heq
    split
    · intro heq
      cases heq
      rfl
    · split
      · intro heq
        cases heq
        rfl
      · intro heq
        cases heq
  · rename_i txn1 heq
    revert heq
    split
    · intro heq
      cases heq
    · split
      · intro heq
        cases heq
      · rename_i existing hx
        intro heq
        cases heq
        by_cases h1 : existing.eventId = "" <;> by_cases h2 : existing.editHash = "" <;>
          simp [Txn.Commit, StringFieldIndex.FromObject, IndexName.field, h1, h2,
            MemDB.setIndex, MemDB.index]

theorem WF_remove (db : MemDB) (p : pendingMeeting) (hwf : WF db) : WF (remove db p).1 := by
  rcases remove_id db p with h | ⟨k, h⟩
  · exact WF_of_id_eq db _ hwf h
  · exact WF_of_id_Delete db _ k hwf h

theorem remove_ok (db : MemDB) (p : pendingMeeting) (hwf : WF db) (hp : p ∈ db.records) :
    (remove db p).2 = none ∧ (remove db p).1.id = db.id.Delete (p.eventId ++ "\x00") := by
  have hm := mem_id_of_mem_records db hwf p hp
  obtain ⟨-, he, hh⟩ := hwf.1 _ hm
  have hg := Index.Get_eq_some_of_mem db.id hwf.2 _ p hm
  simp at he hh
  simp [remove, Txn.Delete, MemDB.Txn, Txn.Commit, StringFieldIndex.FromObject,
    IndexName.field, he, hh, hg, MemDB.setIndex, MemDB.index]


/-! ## The iterator of the lookup, without assumptions on the other keys -/

theorem Index.seek_single (t : Index) (k : String) (v : pendingMeeting) (hm : (k, v) ∈ t)
    (hlen : (t.SeekPrefixWatch k).length ≤ 1) :
    t.filter (fun e => List.isPrefixOf k.data e.1.data) = [(k, v)] := by
  have hmem : (k, v) ∈ t.filter (fun e => List.isPrefixOf k.data e.1.data) := by
    apply List.mem_filter.2
    refine ⟨hm, ?_⟩
    simp
  unfold Index.SeekPrefixWatch at hlen
  rw [List.length_map] at hlen
  generalize t.filter (fun e => List.isPrefixOf k.data e.1.data) = l at hmem hlen
  match l, hmem, hlen with
  | [x], hmem, _ =>
    simp at hmem
    rw [hmem]
  | _ :: _ :: _, _, hlen => simp at hlen

theorem Index.seek_after_Delete (t : Index) (k : String) (v : pendingMeeting)
    (hm : (k, v) ∈ t) (hlen : (t.SeekPrefixWatch k).length ≤ 1) :
    (t.Delete k).SeekPrefixWatch k = [] := by
  have h1 := Index.seek_single t k v hm hlen
  unfold Index.SeekPrefixWatch Index.Delete
  rw [List.filter_filter]
  have : (fun a : String × pendingMeeting =>
      (List.isPrefixOf k.data a.1.data && decide (a.1 ≠ k))) =
      (fun a => (decide (a.1 ≠ k) && List.isPrefixOf k.data a.1.data)) := by
    funext a
    exact Bool.and_comm _ _
  rw [this, ← List.filter_filter, h1]
  simp

theorem getPendingMeeting_cases (db : MemDB) (eventId : String) :
    (1 < (db.id.SeekPrefixWatch (eventId ++ "\x00")).length ∧
      getPendingMeeting db eventId =
        (db, .error "getPendingMeeting: found more than one matching event")) ∨
    (∃ m, db.id.SeekPrefixWatch (eventId ++ "\x00") = [m] ∧
      getPendingMeeting db eventId = (db, .ok (m, true))) ∨
    (db.id.SeekPrefixWatch (eventId ++ "\x00") = [] ∧
      getPendingMeeting db eventId = (db, .ok (pendingMeeting.zero, false))) := by
  match h : db.id.SeekPrefixWatch (eventId ++ "\x00") with
  | [] => exact Or.inr (Or.inr ⟨rfl, getPendingMeeting_of_seek_nil db eventId h⟩)
  | [m] => exact Or.inr (Or.inl ⟨m, rfl, getPendingMeeting_of_seek_single db eventId m h⟩)
  | a :: b :: l =>
    left
    have hl : 1 < (db.id.SeekPrefixWatch (eventId ++ "\x00")).length := by
      rw [h]
      simp
    exact ⟨by simp, getPendingMeeting_of_seek_many db eventId hl⟩

/-! ## The entry points, by the result of the lookup -/

theorem accept_of_absent (env : Env) (db : MemDB) (e : String)
    (h : getPendingMeeting db e = (db, .ok (pendingMeeting.zero, false))) :
    GetAndAcceptPendingMeeting env db e = ⟨db, [], none⟩ := by
  simp [GetAndAcceptPendingMeeting, h]

theorem accept_of_panic (env : Env) (db : MemDB) (e v : String)
    (h : getPendingMeeting db e = (db, .error v)) :
    GetAndAcceptPendingMeeting env db e = ⟨db, [], some v⟩ := by
  simp [GetAndAcceptPendingMeeting, h]

theorem accept_of_found_ok (env : Env) (db : MemDB) (e : String) (m : pendingMeeting)
    (h : getPendingMeeting db e = (db, .ok (m, true))) (st : String)
    (hh : env.http = .response 200 st) :
    GetAndAcceptPendingMeeting env db e =
      ⟨(remove db m).1, [acceptRequest m], (remove db m).2⟩ := by
  simp [GetAndAcceptPendingMeeting, h, acceptMeeting, hh, acceptRequest]

theorem accept_of_found_fail (env : Env) (db : MemDB) (e : String) (m : pendingMeeting)
    (h : getPendingMeeting db e = (db, .ok (m, true)))
    (hh : ∀ st, env.http ≠ .response 200 st) :
    ∃ v, GetAndAcceptPendingMeeting env db e = ⟨db, [acceptRequest m], some v⟩ := by
  cases hx : env.http with
  | httpErr msg =>
    exact ⟨msg, by simp [GetAndAcceptPendingMeeting, h, acceptMeeting, hx, acceptRequest]⟩
  | response code status =>
    have hc : code ≠ 200 := by
      intro hc
      exact hh status (by rw [hx, hc])
    exact ⟨status, by
      simp [GetAndAcceptPendingMeeting, h, acceptMeeting, hx, acceptRequest, hc]⟩

theorem delete_of_absent (env : Env) (db : MemDB) (e : String)
    (h : getPendingMeeting db e = (db, .ok (pendingMeeting.zero, false))) :
    GetAndDeletePendingMeeting env db e = ⟨db, [], none⟩ := by
  simp [GetAndDeletePendingMeeting, h]

theorem delete_of_panic (env : Env) (db : MemDB) (e v : String)
    (h : getPendingMeeting db e = (db, .error v)) :
    GetAndDeletePendingMeeting env db e = ⟨db, [], some v⟩ := by
  simp [GetAndDeletePendingMeeting, h]

theorem delete_of_found_built (env : Env) (db : MemDB) (e : String) (m : pendingMeeting)
    (h : getPendingMeeting db e = (db, .ok (m, true))) (hr : (remove db m).2 = none)
    (hb : env.nylasRequestBuilt = true) :
    GetAndDeletePendingMeeting env db e = ⟨(remove db m).1, [cancelRequest m], none⟩ := by
  have hrm : remove db m = ((remove db m).1, none) := by
    rw [← hr]
  cases hx : env.http with
  | httpErr msg =>
    simp only [GetAndDeletePendingMeeting, h]
    rw [hrm]
    simp [deleteFromNylas, hx, hb, cancelRequest]
  | response code status =>
    simp only [GetAndDeletePendingMeeting, h]
    rw [hrm]
    by_cases hc : code = 200 <;> simp [deleteFromNylas, hx, hb, cancelRequest, hc]

theorem delete_of_found_unbuilt (env : Env) (db : MemDB) (e : String) (m : pendingMeeting)
    (h : getPendingMeeting db e = (db, .ok (m, true))) (hr : (remove db m).2 = none)
    (hb : env.nylasRequestBuilt = false) :
    GetAndDeletePendingMeeting env db e =
      ⟨(remove db m).1, [], some "invalid memory address or nil pointer dereference"⟩ := by
  have hrm : remove db m = ((remove db m).1, none) := by
    rw [← hr]
  simp only [GetAndDeletePendingMeeting, h]
  rw [hrm]
  simp [deleteFromNylas, hb]


/-! ## Records before and after a write -/

theorem Shadowed_mono (db db1 : MemDB) (arg : String)
    (h : ∀ r ∈ db1.records, r ∈ db.records ∨ r.eventId = arg) (hs : ¬ Shadowed db arg) :
    ¬ Shadowed db1 arg := by
  rintro ⟨r, hr, hsh⟩
  rcases h r hr with h1 | h1
  · exact hs ⟨r, h1, hsh⟩
  · rw [h1] at hsh
    exact not_Shadows_self arg hsh

theorem records_of_id_Insert (db db1 : MemDB) (p : pendingMeeting)
    (h : db1.id = db.id.Insert (p.eventId ++ "\x00") p) :
    ∀ r ∈ db1.records, r ∈ db.records ∨ r = p := by
  intro r hr
  unfold MemDB.records at hr
  rw [h] at hr
  obtain ⟨e, he, rfl⟩ := List.mem_map.1 hr
  rcases List.mem_cons.1 he with h1 | h1
  · right
    rw [h1]
  · left
    exact List.mem_map_of_mem Prod.snd (List.mem_filter.1 h1).1

theorem mem_records_of_id_Insert (db db1 : MemDB) (p : pendingMeeting)
    (h : db1.id = db.id.Insert (p.eventId ++ "\x00") p) : p ∈ db1.records := by
  unfold MemDB.records
  rw [h]
  exact List.mem_map_of_mem Prod.snd (List.mem_cons_self _ _)

theorem absent_of_id_Delete (db db1 : MemDB) (e : String) (hwf : WF db)
    (h : db1.id = db.id.Delete (e ++ "\x00")) : ∀ r ∈ db1.records, r.eventId ≠ e := by
  intro r hr hre
  have hwf1 := WF_of_id_Delete db db1 _ hwf h
  have hm := mem_id_of_mem_records db1 hwf1 r hr
  rw [hre, h] at hm
  exact Index.key_not_mem_Delete db.id (e ++ "\x00") (List.mem_map_of_mem Prod.fst hm)

theorem unique_of_WF (db : MemDB) (hwf : WF db) (r1 r2 : pendingMeeting)
    (h1 : r1 ∈ db.records) (h2 : r2 ∈ db.records) (h : r1.eventId = r2.eventId) :
    r1 = r2 := by
  have hm1 := mem_id_of_mem_records db hwf r1 h1
  have hm2 := mem_id_of_mem_records db hwf r2 h2
  rw [h] at hm1
  have e1 := Index.filter_key_eq_of_mem db.id hwf.2 _ r1 hm1
  have e2 := Index.filter_key_eq_of_mem db.id hwf.2 _ r2 hm2
  rw [e1] at e2
  simpa using e2

/-- What `SavePendingMeeting` does with a non-empty eventId and editHash on a well-formed
store. -/
theorem Save_ok (env : Env) (db : MemDB) (e p h : String) (hwf : WF db) (he : e ≠ "")
    (hh : h ≠ "") :
    (SavePendingMeeting env db e p h).fault = none ∧
      (SavePendingMeeting env db e p h).calls = [] ∧
      (SavePendingMeeting env db e p h).db.id = db.id.Insert (e ++ "\x00") ⟨e, p, h⟩ ∧
      WF (SavePendingMeeting env db e p h).db := by
  have h1 := insert_ok env db ⟨e, p, h⟩ hwf he hh
  refine ⟨h1.1, rfl, h1.2, ?_⟩
  exact WF_of_id_Insert db _ ⟨e, p, h⟩ hwf he hh h1.2

/-- A save that does not panic was given a non-empty eventId and editHash. -/
theorem Save_fault_none (env : Env) (db : MemDB) (e p h : String)
    (hs : (SavePendingMeeting env db e p h).fault = none) : e ≠ "" ∧ h ≠ "" := by
  constructor
  · intro he
    have := insert_of_missing_id env db ⟨e, p, h⟩ he
    simp [SavePendingMeeting, this] at hs
  · intro hh
    by_cases he : e = ""
    · have := insert_of_missing_id env db ⟨e, p, h⟩ he
      simp [SavePendingMeeting, this] at hs
    · have := insert_of_missing_hash env db ⟨e, p, h⟩ he hh
      simp [SavePendingMeeting, this] at hs


/-! ## Reachable stores are well-formed -/

theorem accept_db (env : Env) (db : MemDB) (e : String) :
    (GetAndAcceptPendingMeeting env db e).db = db ∨
      ∃ m, (GetAndAcceptPendingMeeting env db e).db = (remove db m).1 := by
  rcases getPendingMeeting_cases db e with ⟨-, h⟩ | ⟨m, -, h⟩ | ⟨-, h⟩
  · rw [accept_of_panic env db e _ h]
    exact Or.inl rfl
  · by_cases hx : ∃ st, env.http = .response 200 st
    · obtain ⟨st, hst⟩ := hx
      rw [accept_of_found_ok env db e m h st hst]
      exact Or.inr ⟨m, rfl⟩
    · obtain ⟨v, hv⟩ := accept_of_found_fail env db e m h (fun st hst => hx ⟨st, hst⟩)
      rw [hv]
      exact Or.inl rfl
  · rw [accept_of_absent env db e h]
    exact Or.inl rfl

theorem delete_db (env : Env) (db : MemDB) (e : String) :
    (GetAndDeletePendingMeeting env db e).db = db ∨
      ∃ m, (GetAndDeletePendingMeeting env db e).db = (remove db m).1 := by
  rcases getPendingMeeting_cases db e with ⟨-, h⟩ | ⟨m, -, h⟩ | ⟨-, h⟩
  · rw [delete_of_panic env db e _ h]
    exact Or.inl rfl
  · right
    refine ⟨m, ?_⟩
    simp only [GetAndDeletePendingMeeting, h]
    rcases hrm : remove db m with ⟨d, _ | v⟩
    · simp only [if_true]
      rcases deleteFromNylas env m with ⟨calls, _ | _⟩ <;> rfl
    · rfl
  · rw [delete_of_absent env db e h]
    exact Or.inl rfl

theorem WF_step (env : Env) (db : MemDB) (c : Call) (hwf : WF db) : WF (step env db c).db := by
  cases c with
  | save e p h => exact WF_insert env db ⟨e, p, h⟩ hwf
  | accept e =>
    rcases accept_db env db e with h | ⟨m, h⟩
    · simp only [step, h]
      exact hwf
    · simp only [step, h]
      exact WF_remove db m hwf
  | delete e =>
    rcases delete_db env db e with h | ⟨m, h⟩
    · simp only [step, h]
      exact hwf
    · simp only [step, h]
      exact WF_remove db m hwf

theorem WF_InitIMDB : WF InitIMDB := by decide

theorem WF_of_Reachable (db : MemDB) (h : Reachable db) : WF db := by
  induction h with
  | init => exact WF_InitIMDB
  | step env c _ ih => exact WF_step env _ c ih

/-! ## One record per eventId -/

theorem records_filter_length_le_one (db : MemDB) (hwf : WF db) (e : String) :
    (db.records.filter (fun r => decide (r.eventId = e))).length ≤ 1 := by
  rcases hl : db.records.filter (fun r => decide (r.eventId = e)) with _ | ⟨a, _ | ⟨b, l⟩⟩
  · rw [hl]
    exact Nat.zero_le 1
  · rw [hl]
    exact Nat.le_refl 1
  · exfalso
    have ha : a ∈ db.records.filter (fun r => decide (r.eventId = e)) := by
      rw [hl]
      simp
    have hb : b ∈ db.records.filter (fun r => decide (r.eventId = e)) := by
      rw [hl]
      simp
    have ha1 := List.mem_filter.1 ha
    have hb1 := List.mem_filter.1 hb
    have hae : a.eventId = e := by simpa using ha1.2
    have hbe : b.eventId = e := by simpa using hb1.2
    have hab : a = b := unique_of_WF db hwf a b ha1.1 hb1.1 (by rw [hae, hbe])
    subst hab
    have hm := mem_id_of_mem_records db hwf a ha1.1
    have hnd : (db.records.filter (fun r => decide (r.eventId = e))).Nodup := by
      apply List.Nodup.filter
      unfold MemDB.records
      have hinj : ∀ x ∈ db.id, ∀ y ∈ db.id, x.2 = y.2 → x = y := by
        intro x hx y hy hxy
        have hx1 := (hwf.1 x hx).1
        have hy1 := (hwf.1 y hy).1
        exact Prod.ext (by rw [hx1, hy1, hxy]) hxy
      have hid : db.id.Nodup := List.Nodup.of_map Prod.fst hwf.2
      exact List.Nodup.map_on hinj hid
    rw [hl] at hnd
    simp at hnd

/-! ## Settling a record -/

/-- The first accept or delete for the eventId of a stored record that does not panic sends
one request for this record, and leaves a store in which the lookup of the eventId finds
nothing. -/
theorem settle_first (db : MemDB) (r : pendingMeeting) (hwf : WF db) (hr : r ∈ db.records)
    (isAccept : Bool) (env : Env)
    (o : Outcome)
    (ho : o = if isAccept then GetAndAcceptPendingMeeting env db r.eventId
      else GetAndDeletePendingMeeting env db r.eventId)
    (hf : o.fault = none) :
    (o.calls = [acceptRequest r] ∨ o.calls = [cancelRequest r]) ∧
      r ∉ o.db.records ∧
      getPendingMeeting o.db r.eventId = (o.db, .ok (pendingMeeting.zero, false)) := by
  have hm := mem_id_of_mem_records db hwf r hr
  have hin : r ∈ db.id.SeekPrefixWatch (r.eventId ++ "\x00") := by
    unfold Index.SeekPrefixWatch
    have : (r.eventId ++ "\x00", r) ∈
        db.id.filter (fun e => List.isPrefixOf (r.eventId ++ "\x00").data e.1.data) := by
      apply List.mem_filter.2
      exact ⟨hm, by simp⟩
    exact List.mem_map_of_mem Prod.snd this
  obtain ⟨hrf, hrid⟩ := remove_ok db r hwf hr
  rcases getPendingMeeting_cases db r.eventId with ⟨-, h⟩ | ⟨m, hseek, h⟩ | ⟨hseek, -⟩
  · cases isAccept
    · simp only [Bool.false_eq_true, if_false] at ho
      rw [ho, delete_of_panic env db _ _ h] at hf
      simp at hf
    · simp only [if_true] at ho
      rw [ho, accept_of_panic env db _ _ h] at hf
      simp at hf
  · have hmr : m = r := by
      rw [hseek] at hin
      exact (List.mem_singleton.1 hin).symm
    subst hmr
    have hlen : (db.id.SeekPrefixWatch (m.eventId ++ "\x00")).length ≤ 1 := by
      rw [hseek]
      simp
    have hnil := Index.seek_after_Delete db.id _ m hm hlen
    have hafter : ∀ d : MemDB, d.id = db.id.Delete (m.eventId ++ "\x00") →
        m ∉ d.records ∧
          getPendingMeeting d m.eventId = (d, .ok (pendingMeeting.zero, false)) := by
      intro d hd
      refine ⟨fun hmem => absent_of_id_Delete db d m.eventId hwf hd m hmem rfl, ?_⟩
      apply getPendingMeeting_of_seek_nil
      rw [hd]
      exact hnil
    cases isAccept
    · simp only [Bool.false_eq_true, if_false] at ho
      cases hb : env.nylasRequestBuilt
      · rw [ho, delete_of_found_unbuilt env db _ m h hrf hb] at hf
        simp at hf
      · rw [ho, delete_of_found_built env db _ m h hrf hb]
        exact ⟨Or.inr rfl, hafter _ hrid⟩
    · simp only [if_true] at ho
      by_cases hx : ∃ st, env.http = .response 200 st
      · obtain ⟨st, hst⟩ := hx
        rw [ho, accept_of_found_ok env db _ m h st hst]
        exact ⟨Or.inl rfl, hafter _ hrid⟩
      · obtain ⟨v, hv⟩ := accept_of_found_fail env db _ m h (fun st hst => hx ⟨st, hst⟩)
        rw [ho, hv] at hf
        simp at hf
  · rw [hseek] at hin
    simp at hin

/-- Once the lookup of the eventId finds nothing, every further accept or delete for it is a
no-op. -/
theorem settle_rest (e : String) (db : MemDB)
    (h : getPendingMeeting db e = (db, .ok (pendingMeeting.zero, false)))
    (cs : List (Bool × Env)) : ∀ o ∈ settle e db cs, o = ⟨db, [], none⟩ := by
  induction cs with
  | nil =>
    intro o ho
    simp [settle] at ho
  | cons c cs ih =>
    intro o ho
    obtain ⟨isAccept, env⟩ := c
    have hstep : (if isAccept then GetAndAcceptPendingMeeting env db e
        else GetAndDeletePendingMeeting env db e) = ⟨db, [], none⟩ := by
      cases isAccept
      · simp only [Bool.false_eq_true, if_false]
        exact delete_of_absent env db e h
      · simp only [if_true]
        exact accept_of_absent env db e h
    simp only [settle, hstep, List.mem_cons] at ho
    rcases ho with ho | ho
    · exact ho
    · exact ih o ho

/-! ## A stored record is among the results of its lookup -/

theorem mem_seek_of_mem_records (db : MemDB) (r : pendingMeeting) (hwf : WF db)
    (hr : r ∈ db.records) : r ∈ db.id.SeekPrefixWatch (r.eventId ++ "\x00") := by
  have hm := mem_id_of_mem_records db hwf r hr
  unfold Index.SeekPrefixWatch
  have : (r.eventId ++ "\x00", r) ∈
      db.id.filter (fun e => List.isPrefixOf (r.eventId ++ "\x00").data e.1.data) := by
    apply List.mem_filter.2
    exact ⟨hm, by simp⟩
  exact List.mem_map_of_mem Prod.snd this

/-- On a well-formed store holding the record `r`, the lookup of its eventId either panics or
returns `r`. -/
theorem getPendingMeeting_of_mem_records (db : MemDB) (r : pendingMeeting) (hwf : WF db)
    (hr : r ∈ db.records) :
    getPendingMeeting db r.eventId =
        (db, .error "getPendingMeeting: found more than one matching event") ∨
      getPendingMeeting db r.eventId = (db, .ok (r, true)) := by
  have hin := mem_seek_of_mem_records db r hwf hr
  rcases getPendingMeeting_cases db r.eventId with ⟨-, h⟩ | ⟨m, hseek, h⟩ | ⟨hseek, -⟩
  · exact Or.inl h
  · rw [hseek] at hin
    have hm : r = m := List.mem_singleton.1 hin
    rw [← hm] at h
    exact Or.inr h
  · rw [hseek] at hin
    simp at hin

/-! ## The claims -/

/-- C1 (failing input): on the store holding only the eventId `a\x00b`, the keys `a` and `h`
are not yet in the store and the save of `a` does not panic; the store then holds one record
with eventId `a`, yet the accept of `a` with a confirmation answering 200 issues no confirm
call and panics with the message of the guard against more than one matching event, because
the lookup also yields the record `a\x00b`. -/
theorem C1_failing_input :
    (∀ r ∈ dbLong.records, r.eventId ≠ "a" ∧ r.editHash ≠ "h") ∧
      (SavePendingMeeting envOK dbLong "a" "p" "h").fault = none ∧
      (SavePendingMeeting envOK dbLong "a" "p" "h").db.records.filter
        (fun r => decide (r.eventId = "a")) = [⟨"a", "p", "h"⟩] ∧
      GetAndAcceptPendingMeeting envOK (SavePendingMeeting envOK dbLong "a" "p" "h").db "a" =
        ⟨(SavePendingMeeting envOK dbLong "a" "p" "h").db, [],
          some "getPendingMeeting: found more than one matching event"⟩ := by
  decide

/-- C2 (counterexample): a second save for the eventId `e` on a store that holds a record with
this eventId is not rejected, and the lookup of `e` afterwards returns the second record, not
the original one. -/
theorem C2_counterexample :
    (⟨"e", "p1", "h1"⟩ : pendingMeeting) ∈
        (SavePendingMeeting envOK InitIMDB "e" "p1" "h1").db.records ∧
      (SavePendingMeeting envOK (SavePendingMeeting envOK InitIMDB "e" "p1" "h1").db
        "e" "p2" "h2").fault = none ∧
      (getPendingMeeting (SavePendingMeeting envOK
        (SavePendingMeeting envOK InitIMDB "e" "p1" "h1").db "e" "p2" "h2").db "e").2 =
        .ok (⟨"e", "p2", "h2"⟩, true) := by
  decide

/-- C2 (amended): on a well-formed store that already holds a record with eventId e, a save for
e with a non-empty editHash is not rejected: it does not panic and replaces the record.
Afterwards the new record is the only stored record with eventId e, and the lookup of e returns
the new record unless another stored eventId starts with e followed by a NUL byte. -/
theorem C2_save_replaces (env : Env) (db : MemDB) (r : pendingMeeting)
    (pageSlug editHash : String) (hwf : WF db) (hr : r ∈ db.records) (hh : editHash ≠ "") :
    (SavePendingMeeting env db r.eventId pageSlug editHash).fault = none ∧
    (⟨r.eventId, pageSlug, editHash⟩ : pendingMeeting) ∈
      (SavePendingMeeting env db r.eventId pageSlug editHash).db.records ∧
    (∀ q ∈ (SavePendingMeeting env db r.eventId pageSlug editHash).db.records,
      q.eventId = r.eventId → q = ⟨r.eventId, pageSlug, editHash⟩) ∧
    (¬ Shadowed db r.eventId →
      getPendingMeeting (SavePendingMeeting env db r.eventId pageSlug editHash).db r.eventId =
        ((SavePendingMeeting env db r.eventId pageSlug editHash).db,
          .ok (⟨r.eventId, pageSlug, editHash⟩, true))) := by
  have he : r.eventId ≠ "" := (hwf.1 _ (mem_id_of_mem_records db hwf r hr)).2.1
  obtain ⟨hsf, -, hsid, hswf⟩ := Save_ok env db r.eventId pageSlug editHash hwf he hh
  generalize (SavePendingMeeting env db r.eventId pageSlug editHash) = s at *
  have hrec : (⟨r.eventId, pageSlug, editHash⟩ : pendingMeeting) ∈ s.db.records :=
    mem_records_of_id_Insert db s.db ⟨r.eventId, pageSlug, editHash⟩ hsid
  refine ⟨hsf, hrec, ?_, ?_⟩
  · intro q hq hqe
    exact unique_of_WF s.db hswf q _ hq hrec hqe
  · intro hsh
    have hsh1 : ¬ Shadowed s.db r.eventId := by
      apply Shadowed_mono db s.db r.eventId _ hsh
      intro q hq
      rcases records_of_id_Insert db s.db ⟨r.eventId, pageSlug, editHash⟩ hsid q hq
        with h1 | h1
      · exact Or.inl h1
      · exact Or.inr (by rw [h1])
    exact getPendingMeeting_found s.db r.eventId hswf hsh1 _ hrec rfl

/-- C2 (witness): the store holding `evt1` and a second save for `evt1`. -/
theorem C2_save_replaces_witness :
    (⟨"evt1", "slugA", "hashA"⟩ : pendingMeeting) ∈ dbOne.records ∧
      (SavePendingMeeting env500 dbOne "evt1" "slugB" "hashB").fault = none ∧
      (⟨"evt1", "slugB", "hashB"⟩ : pendingMeeting) ∈
        (SavePendingMeeting env500 dbOne "evt1" "slugB" "hashB").db.records :=
  have h := C2_save_replaces env500 dbOne ⟨"evt1", "slugA", "hashA"⟩ "slugB" "hashB"
    (by decide) (by decide) (by decide)
  ⟨by decide, h.1, h.2.1⟩




/-- C3 (failing input): a save with the editHash `h` of a stored record and another eventId
is not rejected: it does not panic, afterwards the store holds two records with the editHash
`h`, and the index on editHash, declared unique, holds one entry for them. -/
theorem C3_failing_input :
    (⟨"e1", "p1", "h"⟩ : pendingMeeting) ∈
        (SavePendingMeeting envOK InitIMDB "e1" "p1" "h").db.records ∧
      (SavePendingMeeting envOK (SavePendingMeeting envOK InitIMDB "e1" "p1" "h").db
        "e2" "p2" "h").fault = none ∧
      (SavePendingMeeting envOK (SavePendingMeeting envOK InitIMDB "e1" "p1" "h").db
        "e2" "p2" "h").db.records = [⟨"e2", "p2", "h"⟩, ⟨"e1", "p1", "h"⟩] ∧
      (SavePendingMeeting envOK (SavePendingMeeting envOK InitIMDB "e1" "p1" "h").db
        "e2" "p2" "h").db.editHash = [("h\x00", ⟨"e2", "p2", "h"⟩)] := by
  decide

/-- C4 (failing input): the store holds no record with eventId `a`, yet the accept of `a`
sends the confirm request of the record `a\x00b` and removes that record. -/
theorem C4_failing_input :
    (∀ r ∈ dbLong.records, r.eventId ≠ "a") ∧
      GetAndAcceptPendingMeeting envOK dbLong "a" =
        ⟨InitIMDB, [acceptRequest ⟨"a\x00b", "p0", "h0"⟩], none⟩ := by
  decide

/-- C5 (failing input): the store holds a record whose eventId is `%zz`; the URL
`api.nylas.com/%zz` does not parse, `http.NewRequestWithContext` returns nil, and the delete
of `%zz` removes the record, sends no cancel request and panics on the nil request.  On the
store holding the eventIds `a` and `a\x00b` the delete of `a` panics in the lookup, sends no
cancel request and leaves the record in the store. -/
theorem C5_failing_input :
    ((⟨"%zz", "p", "h"⟩ : pendingMeeting) ∈ dbEscape.records ∧
      GetAndDeletePendingMeeting envNoRequest dbEscape "%zz" =
        ⟨InitIMDB, [], some "invalid memory address or nil pointer dereference"⟩) ∧
    ((⟨"a", "p", "h"⟩ : pendingMeeting) ∈ dbBoth.records ∧
      GetAndDeletePendingMeeting env500 dbBoth "a" =
        ⟨dbBoth, [], some "getPendingMeeting: found more than one matching event"⟩) := by
  decide

/-- C6: on a well-formed store holding a record with eventId e, when the confirmation call
fails, that is when the accept of e hands a confirm request to the HTTP client and the client
returns an error or a status other than 200, the accept panics and does not delete the
record: the request was the one of the record, the store is unchanged and the lookup of e
still returns the record.  Whatever happens, the record is gone afterwards only if the
confirmation call answered 200. -/
theorem C6_accept_failure (env : Env) (db : MemDB) (r : pendingMeeting) (hwf : WF db)
    (hr : r ∈ db.records) :
    ((∀ st, env.http ≠ .response 200 st) →
      (GetAndAcceptPendingMeeting env db r.eventId).calls ≠ [] →
      (GetAndAcceptPendingMeeting env db r.eventId).fault ≠ none ∧
      (GetAndAcceptPendingMeeting env db r.eventId).calls = [acceptRequest r] ∧
      (GetAndAcceptPendingMeeting env db r.eventId).db = db ∧
      getPendingMeeting (GetAndAcceptPendingMeeting env db r.eventId).db r.eventId =
        (db, .ok (r, true))) ∧
    (r ∉ (GetAndAcceptPendingMeeting env db r.eventId).db.records →
      ∃ st, env.http = .response 200 st) := by
  rcases getPendingMeeting_of_mem_records db r hwf hr with hget | hget
  · have hacc := accept_of_panic env db r.eventId _ hget
    constructor
    · intro _ hcall
      rw [hacc] at hcall
      exact absurd rfl hcall
    · intro hgone
      rw [hacc] at hgone
      exact absurd hr hgone
  · have hfail : (∀ st, env.http ≠ .response 200 st) →
        ∃ v, GetAndAcceptPendingMeeting env db r.eventId = ⟨db, [acceptRequest r], some v⟩ :=
      accept_of_found_fail env db r.eventId r hget
    constructor
    · intro hne _
      obtain ⟨v, hv⟩ := hfail hne
      rw [hv]
      exact ⟨by simp, rfl, rfl, hget⟩
    · intro hgone
      by_contra hcon
      obtain ⟨v, hv⟩ := hfail (fun st hst => hcon ⟨st, hst⟩)
      rw [hv] at hgone
      exact hgone hr

/-- C6 (witness): scenario C of the specification, the confirmation answering 500. -/
theorem C6_accept_failure_witness :
    (⟨"evt1", "slugA", "hashA"⟩ : pendingMeeting) ∈ dbOne.records ∧
      (GetAndAcceptPendingMeeting env500 dbOne "evt1").calls ≠ [] ∧
      (GetAndAcceptPendingMeeting env500 dbOne "evt1").fault ≠ none ∧
      (GetAndAcceptPendingMeeting env500 dbOne "evt1").db = dbOne ∧
      getPendingMeeting (GetAndAcceptPendingMeeting env500 dbOne "evt1").db "evt1" =
        (dbOne, .ok (⟨"evt1", "slugA", "hashA"⟩, true)) :=
  have h := (C6_accept_failure env500 dbOne ⟨"evt1", "slugA", "hashA"⟩
    (by decide) (by decide)).1 (by intro st; simp [env500]) (by decide)
  ⟨by decide, by decide, h.1, h.2.2.1, h.2.2.2⟩

/-- C8 (failing input): the store holds no record with eventId `a`, yet the lookup of `a`
reports found and returns the record whose eventId is `a\x00b`. -/
theorem C8_failing_input :
    (∀ r ∈ dbLong.records, r.eventId ≠ "a") ∧
      getPendingMeeting dbLong "a" = (dbLong, .ok (⟨"a\x00b", "p0", "h0"⟩, true)) := by
  decide

/-- C7: after a save on a well-formed store that does not panic, in every non-empty sequence of
accept and delete calls for the saved eventId in which no call panics, the first call finds the
record and hands exactly one request to the HTTP client, the confirm or the cancel request of
the saved record; after it the lookup of the eventId reports not found, and every later call
sends nothing and leaves the store as the first call left it; the number of requests sent over
the whole sequence is one. -/
theorem C7_at_most_once (db : MemDB) (hwf : WF db) (envS : Env)
    (eventId pageSlug editHash : String)
    (hs : (SavePendingMeeting envS db eventId pageSlug editHash).fault = none)
    (cs : List (Bool × Env)) (hne : cs ≠ [])
    (hnf : ∀ o ∈ settle eventId (SavePendingMeeting envS db eventId pageSlug editHash).db cs,
      o.fault = none) :
    ∃ first rest,
      settle eventId (SavePendingMeeting envS db eventId pageSlug editHash).db cs =
        first :: rest ∧
      (first.calls = [acceptRequest ⟨eventId, pageSlug, editHash⟩] ∨
        first.calls = [cancelRequest ⟨eventId, pageSlug, editHash⟩]) ∧
      getPendingMeeting first.db eventId = (first.db, .ok (pendingMeeting.zero, false)) ∧
      (∀ o ∈ rest, o.calls = [] ∧ o.db = first.db) ∧
      ((settle eventId (SavePendingMeeting envS db eventId pageSlug editHash).db cs).map
        (fun o => o.calls.length)).sum = 1 := by
  obtain ⟨he, hh⟩ := Save_fault_none envS db eventId pageSlug editHash hs
  obtain ⟨-, -, hsid, hswf⟩ := Save_ok envS db eventId pageSlug editHash hwf he hh
  generalize (SavePendingMeeting envS db eventId pageSlug editHash) = s at *
  have hrec : (⟨eventId, pageSlug, editHash⟩ : pendingMeeting) ∈ s.db.records :=
    mem_records_of_id_Insert db s.db ⟨eventId, pageSlug, editHash⟩ hsid
  match cs, hne with
  | (isAccept, env) :: cs, _ =>
    simp only [settle] at hnf ⊢
    generalize hod : (if isAccept then GetAndAcceptPendingMeeting env s.db eventId
      else GetAndDeletePendingMeeting env s.db eventId) = o at *
    have hof : o.fault = none := hnf o (List.mem_cons_self _ _)
    obtain ⟨hcalls, -, hgone⟩ :=
      settle_first s.db ⟨eventId, pageSlug, editHash⟩ hswf hrec isAccept env o hod.symm hof
    have hrest := settle_rest eventId o.db hgone cs
    refine ⟨o, settle eventId o.db cs, rfl, hcalls, hgone, ?_, ?_⟩
    · intro q hq
      rw [hrest q hq]
      exact ⟨rfl, rfl⟩
    · have h1 : o.calls.length = 1 := by
        rcases hcalls with h | h <;> rw [h] <;> rfl
      have h0 : ((settle eventId o.db cs).map (fun o => o.calls.length)).sum = 0 := by
        apply List.sum_eq_zero
        intro n hn
        obtain ⟨q, hq, rfl⟩ := List.mem_map.1 hn
        rw [hrest q hq]
        rfl
      rw [List.map_cons, List.sum_cons, h1, h0]

/-- C7 (witness): a delete, an accept and a delete for `evt1` after its save. -/
theorem C7_at_most_once_witness :
    ∃ first rest,
      settle "evt1" (SavePendingMeeting envOK InitIMDB "evt1" "slugA" "hashA").db
        [(false, env500), (true, envOK), (false, envOK)] = first :: rest ∧
      (first.calls = [acceptRequest ⟨"evt1", "slugA", "hashA"⟩] ∨
        first.calls = [cancelRequest ⟨"evt1", "slugA", "hashA"⟩]) ∧
      getPendingMeeting first.db "evt1" = (first.db, .ok (pendingMeeting.zero, false)) ∧
      (∀ o ∈ rest, o.calls = [] ∧ o.db = first.db) ∧
      ((settle "evt1" (SavePendingMeeting envOK InitIMDB "evt1" "slugA" "hashA").db
        [(false, env500), (true, envOK), (false, envOK)]).map
        (fun o => o.calls.length)).sum = 1 :=
  C7_at_most_once InitIMDB (by decide) envOK "evt1" "slugA" "hashA" (by decide)
    [(false, env500), (true, envOK), (false, envOK)] (by decide) (by decide)

/-- C9 (failing input): two saves on the empty store, neither of which panics, reach a store
that holds at most one record for every eventId, on which the lookup of `a` matches two
records and takes the panic branch. -/
theorem C9_failing_input :
    Reachable dbBoth ∧
      (SavePendingMeeting envOK InitIMDB "a\x00b" "p0" "h0").fault = none ∧
      (SavePendingMeeting envOK dbLong "a" "p" "h").fault = none ∧
      (∀ e, (dbBoth.records.filter (fun r => decide (r.eventId = e))).length ≤ 1) ∧
      (dbBoth.Txn.Get .id "a").length = 2 ∧
      (getPendingMeeting dbBoth "a").2 =
        .error "getPendingMeeting: found more than one matching event" :=
  have hr : Reachable dbBoth :=
    Reachable.step envOK (.save "a" "p" "h")
      (Reachable.step envOK (.save "a\x00b" "p0" "h0") Reachable.init)
  ⟨hr, by decide, by decide,
    records_filter_length_le_one dbBoth (WF_of_Reachable dbBoth hr), by decide, by decide⟩

/-- C10: a save with an empty eventId or an empty editHash stores nothing: the insert fails on
the missing index value, the failure is the panic value, and the store is the one before the
call, none of the two indexes being changed. A save with a non-empty eventId and editHash that
are not yet in the well-formed store does not panic, and stores the record. -/
theorem C10_save_missing_key (env : Env) (db : MemDB) (eventId pageSlug editHash : String) :
    (eventId = "" → SavePendingMeeting env db eventId pageSlug editHash =
      ⟨db, [], some "object missing primary index"⟩) ∧
    (eventId ≠ "" → editHash = "" → SavePendingMeeting env db eventId pageSlug editHash =
      ⟨db, [], some "missing value for index \x27editHash\x27"⟩) ∧
    (WF db → eventId ≠ "" → editHash ≠ "" →
      (∀ r ∈ db.records, r.eventId ≠ eventId ∧ r.editHash ≠ editHash) →
      (SavePendingMeeting env db eventId pageSlug editHash).fault = none ∧
      (⟨eventId, pageSlug, editHash⟩ : pendingMeeting) ∈
        (SavePendingMeeting env db eventId pageSlug editHash).db.records) := by
  refine ⟨?_, ?_, ?_⟩
  · intro he
    simp [SavePendingMeeting, insert_of_missing_id env db ⟨eventId, pageSlug, editHash⟩ he]
  · intro he hh
    simp [SavePendingMeeting,
      insert_of_missing_hash env db ⟨eventId, pageSlug, editHash⟩ he hh]
  · intro hwf he hh _
    obtain ⟨hsf, -, hsid, -⟩ := Save_ok env db eventId pageSlug editHash hwf he hh
    exact ⟨hsf, mem_records_of_id_Insert db _ ⟨eventId, pageSlug, editHash⟩ hsid⟩

/-- C10 (witness): a redirect without `event_id`, one without `edit_hash`, and a complete one,
each on the store holding `evt1`. -/
theorem C10_save_missing_key_witness :
    SavePendingMeeting envOK dbOne "" "slugB" "hashB" =
        ⟨dbOne, [], some "object missing primary index"⟩ ∧
      SavePendingMeeting env500 dbOne "evt2" "slugB" "" =
        ⟨dbOne, [], some "missing value for index \x27editHash\x27"⟩ ∧
      (SavePendingMeeting envOK dbOne "evt2" "slugB" "hashB").fault = none :=
  ⟨(C10_save_missing_key envOK dbOne "" "slugB" "hashB").1 rfl,
    (C10_save_missing_key env500 dbOne "evt2" "slugB" "").2.1 (by decide) rfl,
    ((C10_save_missing_key envOK dbOne "evt2" "slugB" "hashB").2.2
      (by decide) (by decide) (by decide) (by decide)).1⟩

end core
